import Mathlib

/-!
Verification of the scene-graph editing core of the editor's world/hierarchy
panel (`editor/src/world/graph/mod.rs`): the `WorldViewerDataProvider`
implementation for `EditorSceneWrapper` — read queries over the live graph,
the reparent request with its cycle-safety walk, asset-drop instantiation,
and the selection-change fold.

Shallow embedding conventions:
* Node handles are `Nat`; `0` is the null handle (`Handle::NONE`).
* The live graph (`Scene::graph`, a generational arena) is an association
  list from handles to node payloads; `tryGet` models `Graph::try_get`
  (returns `none` for a handle that is not live).
* A Rust panic (e.g. `Option::unwrap` on `None`, or indexing the arena with
  a dead handle) is modelled by an `Option`-valued result being `none`; a
  run that also has a meaningful `Option` result therefore returns
  `Option (Option _)` with the outer layer marking normal termination.
* The unbounded `while` walk of the reparent cycle check is embedded with
  explicit fuel `g.length + 1`; well-formedness theorems show this fuel is
  never exhausted on graphs whose parent chains terminate.
-/

namespace FyroxWorldGraph

/-- Component scale vector (`Vector3<f32>` carried opaquely; the code only
stores it, never computes with it, so exact field values suffice). -/
structure Vec3 where
  x : Int
  y : Int
  z : Int
deriving DecidableEq, Repr

/-- A scene node's payload, as observed by the data provider: parent
back-reference, ordered child handles, display name, origin-resource flag
(`Node::resource()`), local-transform scale, and the capability predicates
used by `icon_of`. -/
structure Node where
  parent : Nat
  children : List Nat
  name : String
  resource : Bool
  scale : Vec3
  isPointLight : Bool
  isDirectionalLight : Bool
  isSpotLight : Bool
  isJoint : Bool
  isJoint2d : Bool
  isRigidBody : Bool
  isRigidBody2d : Bool
  isCollider : Bool
  isCollider2d : Bool
  isSound : Bool
deriving DecidableEq, Repr

/-- The live graph: an association list from (erased) handles to nodes. -/
abbrev Graph := List (Nat × Node)

/-- Modelled from the spec: the arena's `try_get(handle) -> Option<Node>`
(first entry with the given key; `none` when the handle is not live). -/
def tryGet (g : Graph) (h : Nat) : Option Node :=
  match g with
  | [] => none
  | e :: rest => if e.1 = h then some e.2 else tryGet rest h

/-- Boolean liveness of a handle in the arena. -/
def presentB (g : Graph) (h : Nat) : Bool :=
  (tryGet g h).isSome

/-- `children_of`: child list, or `[]` when the handle is invalid. -/
def children_of (g : Graph) (node : Nat) : List Nat :=
  ((tryGet g node).map Node.children).getD []

/-- `child_count_of`: number of children, or `0` when the handle is invalid. -/
def child_count_of (g : Graph) (node : Nat) : Nat :=
  ((tryGet g node).map (fun n => n.children.length)).getD 0

/-- `is_node_has_child`: membership in the child list, `false` when invalid. -/
def is_node_has_child (g : Graph) (node child : Nat) : Bool :=
  ((tryGet g node).map (fun n => n.children.contains child)).getD false

/-- `parent_of`: parent handle, or the null handle when invalid. -/
def parent_of (g : Graph) (node : Nat) : Nat :=
  ((tryGet g node).map Node.parent).getD 0

/-- `name_of`: display name, `none` when the handle is invalid. -/
def name_of (g : Graph) (node : Nat) : Option String :=
  (tryGet g node).map Node.name

/-- `is_valid_handle`: liveness check against the arena. -/
def is_valid_handle (g : Graph) (node : Nat) : Bool :=
  (tryGet g node).isSome

/-- `is_instance`: true iff the node's origin resource link is set;
`false` when the handle is invalid. -/
def is_instance (g : Graph) (node : Nat) : Bool :=
  ((tryGet g node).map Node.resource).getD false

/-- Symbolic identity of the built-in icons loaded by `icon_of` (the
byte-encoded images are opaque to this core; only which one is chosen
matters). -/
inductive IconKind where
  | light
  | joint
  | rigidBody
  | collider
  | sound
  | generic
deriving DecidableEq, Repr

/-- The capability classification chain of `icon_of`, in source order:
light, then joint, then rigid body, then collider, then sound, then the
generic fallback. -/
def iconFor (n : Node) : IconKind :=
  if n.isPointLight || n.isDirectionalLight || n.isSpotLight then .light
  else if n.isJoint || n.isJoint2d then .joint
  else if n.isRigidBody || n.isRigidBody2d then .rigidBody
  else if n.isCollider || n.isCollider2d then .collider
  else if n.isSound then .sound
  else .generic

/-- `icon_of`: the source does `try_get(node).unwrap()` before classifying,
so a dead handle panics; the panic is modelled by the result `none`. A
live handle classifies normally (`load_image` of the chosen built-in image
is represented by its symbolic `IconKind`). -/
def icon_of (g : Graph) (node : Nat) : Option IconKind :=
  (tryGet g node).map iconFor

/-- The editor's selection value, restricted to the variants this core
touches: `None`, the graph-node variant with its node list, and the other
domain-specific variants collapsed to an opaque tag. -/
inductive Selection where
  | none
  | graph (nodes : List Nat)
  | other (tag : Nat)
deriving DecidableEq, Repr

/-- `selection()`: the selected node handles when the active selection is
the graph variant, otherwise the empty list. -/
def selection_of (sel : Selection) : List Nat :=
  match sel with
  | .graph nodes => nodes
  | _ => []

/-- Modelled from the spec: `GraphSelection::insert_or_exclude` (the file
`world/graph/selection.rs` is not part of the excerpt) — "on
`GraphNodes(s)`: `s \ {h}` if `h ∈ s` else `s ∪ {h}`". -/
def insert_or_exclude (s : List Nat) (h : Nat) : List Nat :=
  if s.contains h then s.filter (fun x => x != h) else s ++ [h]

/-- Modelled from the spec: `GraphSelection::single_or_empty` as used for
the first handle of the selection fold — the spec's transition
"`toggle(h)` on `None` gives `GraphNodes({h})`". -/
def single_or_empty (h : Nat) : List Nat := [h]

/-- Modelled from the spec: the selection toggle as a transition on whole
selection values — `None` goes to `GraphNodes({h})`, the graph variant
applies `insert_or_exclude`, other variants are left unchanged. -/
def toggleSel (sel : Selection) (h : Nat) : Selection :=
  match sel with
  | .none => .graph (single_or_empty h)
  | .graph s => .graph (insert_or_exclude s h)
  | o => o

/-- Set equality of handle lists (each contained in the other). -/
def listSetEq (a b : List Nat) : Bool :=
  a.all (fun x => b.contains x) && b.all (fun x => a.contains x)

/-- Modelled from the spec: structural equality of selection values —
"structural set/variant equality" (same variant; graph variants compare
their node sets). -/
def selEq : Selection → Selection → Bool
  | .none, .none => true
  | .graph a, .graph b => listSetEq a b
  | .other a, .other b => a == b
  | _, _ => false

/-- A detached sub-graph as returned by `take_reserve_sub_graph`: the root
handle plus the removed entries. -/
structure SubGraph where
  root : Nat
  entries : Graph
deriving DecidableEq, Repr

/-- The scene commands this core produces (`LinkNodesCommand`,
`AddModelCommand`, `ChangeSelectionCommand`); each carries exactly the data
the source constructors receive. -/
inductive GameSceneCommand where
  | linkNodes (node parent : Nat)
  | addModel (sub : SubGraph)
  | changeSelection (newSel oldSel : Selection)
deriving DecidableEq, Repr

/-! ### The reparent request (`on_change_hierarchy_request`) -/

/-- The cycle-safety walk of `on_change_hierarchy_request`: starting at
`p`, follow parent links while `p.is_some()`; result `some false` when the
target node's handle is encountered (`attach = false`), `some true` when
the walk reaches the null handle. `none` models a run that does not return
normally: either the arena indexing `graph[p]` panics on a dead handle, or
the fuel runs out (the source's `while` loop diverging on a parent cycle). -/
def ancestorAttach (g : Graph) (target : Nat) : Nat → Nat → Option Bool
  | 0, _ => none
  | fuel + 1, p =>
    if p = 0 then some true
    else if p = target then some false
    else
      match tryGet g p with
      | none => none
      | some n => ancestorAttach g target fuel n.parent

/-- The command-accumulation loop of `on_change_hierarchy_request`: for
each selected node run the cycle-safety walk (with fuel `g.length + 1`)
and push a `LinkNodesCommand` when `attach` survived; `none` propagates a
panicking/diverging walk. -/
def buildLinkCommands (g : Graph) (parent : Nat) :
    List Nat → Option (List GameSceneCommand)
  | [] => some []
  | n :: rest =>
    match ancestorAttach g n (g.length + 1) parent with
    | none => none
    | some attach =>
      (buildLinkCommands g parent rest).map fun cmds =>
        if attach then .linkNodes n parent :: cmds else cmds

/-- `on_change_hierarchy_request(child, parent)`. The inner option is what
reaches the command sender: `none` when nothing is submitted, `some cmds`
when the group `cmds` is submitted. The outer option marks normal
termination of the call itself. -/
def on_change_hierarchy_request (g : Graph) (sel : Selection)
    (child parent : Nat) : Option (Option (List GameSceneCommand)) :=
  match sel with
  | .graph nodes =>
    if nodes.contains child then
      (buildLinkCommands g parent nodes).map fun cmds =>
        if cmds.isEmpty then none else some cmds
    else some none
  | _ => some none

/-! ### The asset drop (`on_asset_dropped`) -/

/-- A model resource's instantiable content: the sub-tree of nodes it
produces, root first. Links inside the model are local: `0` is the null
link and `j + 1` refers to the `j`-th node of the list. -/
structure Model where
  root : Node
  rest : List Node
deriving DecidableEq, Repr

/-- The node list of a model, root first. -/
def Model.nodesList (m : Model) : List Node := m.root :: m.rest

/-- Modelled from the spec: the resource boundary of `on_asset_dropped` —
`make_relative_path` (normalization, may fail) and
`try_request::<Model>` followed by the awaited resolution
(`block_on(m).ok()`), collapsed into one fallible model lookup. -/
structure ResourceEnv where
  make_relative_path : String → Option String
  request_model : String → Option Model

/-- Translate a model-local link at instantiation: the null link stays
null, local node `j` becomes live handle `base + j`. -/
def offsetLink (base : Nat) : Nat → Nat
  | 0 => 0
  | j + 1 => base + j

/-- A model node with its links translated to live handles. -/
def shiftNode (base : Nat) (n : Node) : Node :=
  { n with
    parent := offsetLink base n.parent
    children := n.children.map (offsetLink base) }

/-- Largest key present in the arena (fresh handles are allocated above it). -/
def maxKey (g : Graph) : Nat :=
  g.foldr (fun e acc => max e.1 acc) 0

/-- The arena entries a list of model nodes contributes when instantiated
at `base`, the `i`-th node landing at handle `base + i`. -/
def instEntriesAux (base : Nat) : Nat → List Node → Graph
  | _, [] => []
  | i, n :: rest => (base + i, shiftNode base n) :: instEntriesAux base (i + 1) rest

/-- The arena entries a model contributes when instantiated at `base`. -/
def instEntries (m : Model) (base : Nat) : Graph :=
  instEntriesAux base 0 m.nodesList

/-- Modelled from the spec: `Model::instantiate(graph) -> Handle` —
"producing a new sub-tree rooted at the returned handle"; the sub-tree's
nodes are placed at fresh handles `base, base + 1, …` with
`base = maxKey g + 1`, and the root handle is returned. -/
def instantiate (m : Model) (g : Graph) : Nat × Graph :=
  let base := maxKey g + 1
  (base, g ++ instEntries m base)

/-- Update the payload at one key of the arena, leaving everything else
untouched (no-op when the key is absent). -/
def updAt (g : Graph) (k : Nat) (f : Node → Node) : Graph :=
  g.map fun e => if e.1 = k then (e.1, f e.2) else e

/-- `graph[h].local_transform_mut().set_scale(s)`. -/
def setScale (g : Graph) (h : Nat) (s : Vec3) : Graph :=
  updAt g h (fun n => { n with scale := s })

/-- The handles of a node and all its descendants, by child links
(fuel-bounded traversal). -/
def subKeys (g : Graph) : Nat → Nat → List Nat
  | 0, _ => []
  | fuel + 1, h => h :: (children_of g h).flatMap (subKeys g fuel)

/-- Modelled from the spec: `take_reserve_sub_graph(handle)` — detaches the
node and all its descendants from the arena and returns them as one
transferable unit together with the remaining graph. -/
def take_reserve_sub_graph (g : Graph) (h : Nat) : SubGraph × Graph :=
  let ks := subKeys g (g.length + 1) h
  ({ root := h, entries := g.filter (fun e => ks.contains e.1) },
   g.filter (fun e => !ks.contains e.1))

/-- `on_asset_dropped(path, node)`: normalize the path, request and resolve
the model; on success instantiate it, apply the instantiation scale to the
new instance, detach the fresh sub-graph and submit the three-command
group; on any failure do nothing. Returns the graph as left behind by the
call together with the submitted command group (if any). -/
def on_asset_dropped (env : ResourceEnv) (instantiation_scale : Vec3)
    (sel : Selection) (g : Graph) (path : String) (node : Nat) :
    Graph × Option (List GameSceneCommand) :=
  match env.make_relative_path path with
  | none => (g, none)
  | some relative_path =>
    match env.request_model relative_path with
    | none => (g, none)
    | some model =>
      let inst := (instantiate model g).1
      let g1 := (instantiate model g).2
      let g2 := setScale g1 inst instantiation_scale
      let sub := (take_reserve_sub_graph g2 inst).1
      let g3 := (take_reserve_sub_graph g2 inst).2
      (g3, some
        [.addModel sub,
         .linkNodes inst node,
         .changeSelection (.graph (single_or_empty inst)) sel])

/-! ### The selection-change request (`on_selection_changed`) -/

/-- The accumulation loop of `on_selection_changed`: starting from
`Selection::None`, the first handle creates the graph variant via
`single_or_empty`, later handles are folded with `insert_or_exclude`,
other variants are left alone. -/
def selection_fold (hs : List Nat) : Selection :=
  hs.foldl
    (fun s h =>
      match s with
      | .none => .graph (single_or_empty h)
      | .graph ns => .graph (insert_or_exclude ns h)
      | o => o)
    .none

/-- `on_selection_changed(selection)`: build the fresh selection value and
submit a `ChangeSelectionCommand` (new and old) iff it differs from the
active selection. -/
def on_selection_changed (sel : Selection) (hs : List Nat) :
    Option GameSceneCommand :=
  let newSel := selection_fold hs
  if selEq newSel sel then none else some (.changeSelection newSel sel)

/-! ### Command application (for the consequence parts of the reparent
claim: excluded nodes keep their parent, the batch cannot create a cycle) -/

/-- Remove one handle from a node's child list. -/
def removeChild (g : Graph) (p c : Nat) : Graph :=
  updAt g p (fun n => { n with children := n.children.filter (fun x => x != c) })

/-- Append one handle to a node's child list. -/
def addChild (g : Graph) (p c : Nat) : Graph :=
  updAt g p (fun n => { n with children := n.children ++ [c] })

/-- Set a node's parent back-reference. -/
def setParent (g : Graph) (c p : Nat) : Graph :=
  updAt g c (fun n => { n with parent := p })

/-- Modelled from the spec: applying one command to the live graph —
`LinkNodesCommand` detaches the node from its old parent and attaches it
under the new one (child lists and parent back-reference kept
bidirectionally consistent), `AddModelCommand` puts the reserved sub-graph
back, `ChangeSelectionCommand` does not touch the graph. -/
def applyCommand (g : Graph) : GameSceneCommand → Graph
  | .linkNodes child parent =>
    addChild (setParent (removeChild g (parent_of g child) child) child parent)
      parent child
  | .addModel sub => g ++ sub.entries
  | .changeSelection _ _ => g

/-- Apply a command group in order. -/
def applyGroup (g : Graph) (cmds : List GameSceneCommand) : Graph :=
  cmds.foldl applyCommand g

/-! ### Declarative notions for the reparent characterization -/

/-- One step of upward parent traversal (null for a dead handle). -/
def pstep (g : Graph) (p : Nat) : Nat :=
  match tryGet g p with
  | some n => n.parent
  | none => 0

/-- `k`-fold upward parent traversal. -/
def chainN (g : Graph) (k : Nat) (p : Nat) : Nat :=
  (pstep g)^[k] p

/-- Walking parent links upward from `p` reaches the null handle without
encountering `target` on the way. -/
def ReachesNullAvoiding (g : Graph) (target p : Nat) : Prop :=
  ∃ k, chainN g k p = 0 ∧ ∀ j < k, chainN g j p ≠ target

/-- Every parent chain reaches the null handle (no parent cycles). -/
def AcyclicP (g : Graph) : Prop :=
  ∀ p, ∃ k, chainN g k p = 0

/-- Decidable graph well-formedness, part 1: the null handle is not a live
key of the arena. -/
def noKey0B (g : Graph) : Bool :=
  !presentB g 0

/-- Decidable graph well-formedness, part 2: every live node's parent is
null or live. -/
def closedB (g : Graph) : Bool :=
  g.all fun e => e.2.parent == 0 || presentB g e.2.parent

/-- Decidable graph well-formedness, part 3: every live node's parent chain
reaches the null handle within `g.length` steps. -/
def termB (g : Graph) : Bool :=
  g.all fun e => (List.range (g.length + 1)).any fun k => chainN g k e.1 == 0

/-- The command batch a reparent request assembles (empty when the
accumulation loop would not have terminated normally). -/
def reparentBatch (g : Graph) (parent : Nat) (nodes : List Nat) :
    List GameSceneCommand :=
  (buildLinkCommands g parent nodes).getD []

/-! ### Model-local notions mirroring the live sub-graph traversal -/

/-- The child links of the model node named by a local link (empty for the
null link or an out-of-range link). -/
def localChildren (m : Model) (l : Nat) : List Nat :=
  match l with
  | 0 => []
  | j + 1 => ((m.nodesList.get? j).map Node.children).getD []

/-- The model-local counterpart of `subKeys`: local links of a model node
and all its descendants inside the model. -/
def localSub (m : Model) : Nat → Nat → List Nat
  | 0, _ => []
  | fuel + 1, l => l :: (localChildren m l).flatMap (localSub m fuel)

/-- Decidable model well-formedness: no node of the model has a null
child link (children reference actual nodes, as arena child lists do). -/
def modelLinksOkB (m : Model) : Bool :=
  m.nodesList.all fun n => n.children.all fun c => c != 0

/-- The sub-tree traversal from the model's root (local link `1`) covers
every node of the model, at the fuel the live detach traversal will use
over graph `g`. -/
def ModelCovers (m : Model) (g : Graph) : Prop :=
  ∀ i < m.nodesList.length,
    (i + 1) ∈ localSub m (g.length + m.nodesList.length + 1) 1

/-! ### Named stages of the asset-drop pipeline (exactly the source's
local bindings `instance`, `sub_graph` and the graph left behind) -/

/-- The handle of the freshly instantiated model instance. -/
def dropInstance (m : Model) (g : Graph) : Nat :=
  (instantiate m g).1

/-- The graph after instantiation and scaling, before detaching. -/
def dropScaled (m : Model) (g : Graph) (s : Vec3) : Graph :=
  setScale (instantiate m g).2 (dropInstance m g) s

/-- The detached sub-graph handed to `AddModelCommand`. -/
def dropSubGraph (m : Model) (g : Graph) (s : Vec3) : SubGraph :=
  (take_reserve_sub_graph (dropScaled m g s) (dropInstance m g)).1

/-- The graph left behind after the sub-graph is detached. -/
def dropRemaining (m : Model) (g : Graph) (s : Vec3) : Graph :=
  (take_reserve_sub_graph (dropScaled m g s) (dropInstance m g)).2

/-! ## Basic lemmas about the arena embedding -/

theorem tryGet_cons (e : Nat × Node) (g : Graph) (k : Nat) :
    tryGet (e :: g) k = if e.1 = k then some e.2 else tryGet g k := rfl

theorem maxKey_cons (e : Nat × Node) (g : Graph) :
    maxKey (e :: g) = max e.1 (maxKey g) := rfl

theorem key_le_maxKey {g : Graph} {e : Nat × Node} (h : e ∈ g) :
    e.1 ≤ maxKey g := by
  induction g with
  | nil => cases h
  | cons e' rest ih =>
    rw [maxKey_cons]
    rcases List.mem_cons.mp h with h | h
    · subst h; exact le_max_left _ _
    · exact le_trans (ih h) (le_max_right _ _)

theorem tryGet_eq_none_of_gt {g : Graph} {k : Nat} (h : maxKey g < k) :
    tryGet g k = none := by
  induction g with
  | nil => rfl
  | cons e rest ih =>
    rw [maxKey_cons] at h
    rw [tryGet_cons, if_neg]
    · exact ih (lt_of_le_of_lt (le_max_right _ _) h)
    · exact fun he => absurd h (by simp [← he, le_max_left])

theorem tryGet_append_of_none {a b : Graph} {k : Nat}
    (h : tryGet a k = none) : tryGet (a ++ b) k = tryGet b k := by
  induction a with
  | nil => rfl
  | cons e rest ih =>
    rw [List.cons_append, tryGet_cons]
    rw [tryGet_cons] at h
    by_cases hek : e.1 = k
    · rw [if_pos hek] at h; cases h
    · rw [if_neg hek] at h ⊢; exact ih h

theorem tryGet_updAt (g : Graph) (k : Nat) (f : Node → Node) (x : Nat) :
    tryGet (updAt g k f) x =
      if x = k then (tryGet g x).map f else tryGet g x := by
  induction g with
  | nil => simp [updAt, tryGet]
  | cons e rest ih =>
    by_cases hex : e.1 = x
    · by_cases hxk : x = k
      · simp [updAt, tryGet_cons, hex, hxk, hex.trans hxk]
      · have hek : ¬ e.1 = k := fun hc => hxk (hex ▸ hc)
        simp [updAt, tryGet_cons, hex, hxk, hek]
    · by_cases hek : e.1 = k
      · simp only [updAt, List.map_cons, if_pos hek, tryGet_cons] at *
        simp [hex, ih, updAt]
      · simp only [updAt, List.map_cons, if_neg hek, tryGet_cons] at *
        simp [hex, ih, updAt]

theorem updAt_eq_self {g : Graph} {k : Nat} {f : Node → Node}
    (h : ∀ e ∈ g, e.1 ≠ k) : updAt g k f = g := by
  induction g with
  | nil => rfl
  | cons e rest ih =>
    simp only [updAt, List.map_cons]
    rw [if_neg (h e (List.mem_cons_self e rest))]
    have : updAt rest k f = rest := ih fun e' he' => h e' (List.mem_cons_of_mem _ he')
    simp only [updAt] at this
    rw [this]

theorem updAt_append (a b : Graph) (k : Nat) (f : Node → Node) :
    updAt (a ++ b) k f = updAt a k f ++ updAt b k f :=
  List.map_append _ a b

theorem tryGet_filter_of (q : Nat × Node → Bool) {g : Graph} {k : Nat}
    {n : Node} (h1 : tryGet g k = some n) (h2 : q (k, n) = true) :
    tryGet (g.filter q) k = some n := by
  induction g with
  | nil => cases h1
  | cons e rest ih =>
    rw [tryGet_cons] at h1
    by_cases hek : e.1 = k
    · rw [if_pos hek] at h1
      injection h1 with h1
      have he : e = (k, n) := by
        obtain ⟨e1, e2⟩ := e
        simp_all
      subst he
      rw [List.filter_cons, if_pos h2, tryGet_cons, if_pos rfl]
    · rw [if_neg hek] at h1
      rw [List.filter_cons]
      split
      · rw [tryGet_cons, if_neg hek]; exact ih h1
      · exact ih h1

theorem presentB_iff {g : Graph} {h : Nat} :
    presentB g h = true ↔ ∃ n, tryGet g h = some n := by
  simp [presentB, Option.isSome_iff_exists]

/-! ## Lemmas about selections -/

theorem contains_iff {l : List Nat} {a : Nat} :
    l.contains a = true ↔ a ∈ l :=
  List.elem_iff

theorem listSetEq_iff {a b : List Nat} :
    listSetEq a b = true ↔ ∀ x, x ∈ a ↔ x ∈ b := by
  simp only [listSetEq, Bool.and_eq_true, List.all_eq_true]
  constructor
  · rintro ⟨h1, h2⟩ x
    exact ⟨fun hx => contains_iff.mp (h1 x hx),
      fun hx => contains_iff.mp (h2 x hx)⟩
  · intro h
    exact ⟨fun x hx => contains_iff.mpr ((h x).mp hx),
      fun x hx => contains_iff.mpr ((h x).mpr hx)⟩

theorem mem_insert_or_exclude_of_mem {s : List Nat} {h : Nat} (hm : h ∈ s)
    (x : Nat) : x ∈ insert_or_exclude s h ↔ x ∈ s ∧ x ≠ h := by
  rw [insert_or_exclude, if_pos (contains_iff.mpr hm)]
  simp [List.mem_filter]

theorem mem_insert_or_exclude_of_not_mem {s : List Nat} {h : Nat}
    (hm : h ∉ s) (x : Nat) :
    x ∈ insert_or_exclude s h ↔ x ∈ s ∨ x = h := by
  rw [insert_or_exclude, if_neg (fun hc => hm (contains_iff.mp hc))]
  simp

/-! ## Concrete fixtures used by witnesses and counterexamples -/

/-- A plain node with the given parent and children and no capabilities. -/
def plainNode (p : Nat) (cs : List Nat) : Node :=
  { parent := p, children := cs, name := "", resource := false,
    scale := ⟨1, 1, 1⟩, isPointLight := false, isDirectionalLight := false,
    isSpotLight := false, isJoint := false, isJoint2d := false,
    isRigidBody := false, isRigidBody2d := false, isCollider := false,
    isCollider2d := false, isSound := false }

/-- A node that is simultaneously a spot light and a joint. -/
def lightJointNode : Node :=
  { plainNode 0 [] with isSpotLight := true, isJoint := true }

/-- A small live graph: `1` is the root with child `2`, `2` has child `3`. -/
def demoGraph : Graph :=
  [(1, plainNode 0 [2]), (2, plainNode 1 [3]), (3, plainNode 2 [])]

/-- A resource environment in which no path normalizes. -/
def envFail : ResourceEnv :=
  { make_relative_path := fun _ => none, request_model := fun _ => none }

/-! ## Claim C6 — read queries degrade to neutral defaults -/

/-- C6: for every handle `h` not present in the live graph,
`children_of h = []`, `child_count_of h = 0`, `has_child h c = false` for
every `c`, `parent_of h` is the null handle, `name_of h = none`,
`is_valid h = false` and `is_instance h = false`. -/
theorem invalid_handle_reads_default (g : Graph) (h : Nat)
    (hinv : tryGet g h = none) :
    children_of g h = [] ∧ child_count_of g h = 0 ∧
    (∀ c, is_node_has_child g h c = false) ∧ parent_of g h = 0 ∧
    name_of g h = none ∧ is_valid_handle g h = false ∧
    is_instance g h = false := by
  simp [children_of, child_count_of, is_node_has_child, parent_of, name_of,
    is_valid_handle, is_instance, hinv]

/-- Witness for C6 at the concrete graph `demoGraph` and dead handle `99`. -/
theorem invalid_handle_reads_default_witness :
    children_of demoGraph 99 = [] ∧ is_node_has_child demoGraph 99 7 = false :=
  ⟨(invalid_handle_reads_default demoGraph 99 (by decide)).1,
   (invalid_handle_reads_default demoGraph 99 (by decide)).2.2.1 7⟩

/-! ## Claim C2 — totality of the read side (`icon_of` panics) -/

/-- C2 counterexample: `icon_of` is not total on invalid handles — the
source unwraps `try_get` before classifying, so a dead handle panics
(modelled by the result `none`) instead of returning a neutral default. -/
theorem icon_of_panics_cex : icon_of demoGraph 99 = none := by decide

/-- C2 (amended): every read query except `icon_of` is total and returns a
neutral default on an invalid handle, while `icon_of` returns normally
exactly on the handles live in the graph (and panics on the rest). -/
theorem icon_of_normal_iff_valid (g : Graph) (h : Nat) :
    (icon_of g h).isSome = presentB g h := by
  simp [icon_of, presentB]

/-! ## Claim C8 — icon classification order -/

/-- C8: for a valid node handle, `icon_of` classifies by the first matching
predicate in source order — light, then joint, then rigid body, then
collider, then sound, then the generic fallback; in particular a node that
is both a light and a joint resolves to the light icon. -/
theorem icon_order_first_match (g : Graph) (h : Nat) (n : Node)
    (hn : tryGet g h = some n) :
    icon_of g h = some (iconFor n) ∧
    ((n.isPointLight || n.isDirectionalLight || n.isSpotLight) = true →
      iconFor n = .light) ∧
    ((n.isPointLight || n.isDirectionalLight || n.isSpotLight) = false →
      (n.isJoint || n.isJoint2d) = true → iconFor n = .joint) ∧
    ((n.isPointLight || n.isDirectionalLight || n.isSpotLight) = false →
      (n.isJoint || n.isJoint2d) = false →
      (n.isRigidBody || n.isRigidBody2d) = true →
      iconFor n = .rigidBody) ∧
    ((n.isPointLight || n.isDirectionalLight || n.isSpotLight) = false →
      (n.isJoint || n.isJoint2d) = false →
      (n.isRigidBody || n.isRigidBody2d) = false →
      (n.isCollider || n.isCollider2d) = true → iconFor n = .collider) ∧
    ((n.isPointLight || n.isDirectionalLight || n.isSpotLight) = false →
      (n.isJoint || n.isJoint2d) = false →
      (n.isRigidBody || n.isRigidBody2d) = false →
      (n.isCollider || n.isCollider2d) = false → n.isSound = true →
      iconFor n = .sound) ∧
    ((n.isPointLight || n.isDirectionalLight || n.isSpotLight) = false →
      (n.isJoint || n.isJoint2d) = false →
      (n.isRigidBody || n.isRigidBody2d) = false →
      (n.isCollider || n.isCollider2d) = false → n.isSound = false →
      iconFor n = .generic) ∧
    ((n.isPointLight || n.isDirectionalLight || n.isSpotLight) = true →
      (n.isJoint || n.isJoint2d) = true → iconFor n = .light) := by
  refine ⟨by simp [icon_of, hn], ?_, ?_, ?_, ?_, ?_, ?_, ?_⟩ <;>
    intros <;> simp [iconFor, *]

/-- Witness for C8 at a node that is both a spot light and a joint. -/
theorem icon_order_first_match_witness :
    icon_of [(1, lightJointNode)] 1 = some (iconFor lightJointNode) ∧
    iconFor lightJointNode = .light :=
  ⟨(icon_order_first_match [(1, lightJointNode)] 1 lightJointNode
      (by decide)).1,
   (icon_order_first_match [(1, lightJointNode)] 1 lightJointNode
      (by decide)).2.2.2.2.2.2.2 (by decide) (by decide)⟩

/-! ## Claim C4 — asset drop failure is a silent no-op -/

/-- C4: when path normalization fails, or the resource request/resolution
fails, `on_asset_dropped` submits no command, leaves the graph exactly as
it was, and surfaces no error (the call returns normally). -/
theorem asset_drop_failure_noop (env : ResourceEnv) (s : Vec3)
    (sel : Selection) (g : Graph) (path : String) (node : Nat)
    (hfail : ∀ rel, env.make_relative_path path = some rel →
      env.request_model rel = none) :
    on_asset_dropped env s sel g path node = (g, none) := by
  unfold on_asset_dropped
  cases hm : env.make_relative_path path with
  | none => rfl
  | some rel =>
    simp only []
    rw [hfail rel hm]

/-- Witness for C4 with an environment in which no path normalizes. -/
theorem asset_drop_failure_noop_witness :
    on_asset_dropped envFail ⟨1, 1, 1⟩ Selection.none demoGraph "p" 1 =
      (demoGraph, none) :=
  asset_drop_failure_noop envFail ⟨1, 1, 1⟩ Selection.none demoGraph "p" 1
    (fun rel h => by simp [envFail] at h)

/-! ## Claim C9 — the toggle is an involution (except from `None`) -/

/-- C9 counterexample: toggling the same handle twice starting from the
`None` selection yields the graph variant with an empty set, which is not
structurally equal to `None` — the toggle is not an involution on every
selection value. -/
theorem toggle_involution_cex :
    selEq (toggleSel (toggleSel Selection.none 1) 1) Selection.none =
      false := by decide

/-- C9 (amended): on every selection value other than the `None` variant,
applying the toggle (insert-or-exclude) with the same handle twice yields
a selection structurally (set/variant) equal to the original. -/
theorem toggle_involution_non_none (s : Selection) (h : Nat)
    (hs : s ≠ Selection.none) :
    selEq (toggleSel (toggleSel s h) h) s = true := by
  cases s with
  | none => exact absurd rfl hs
  | other t => simp [toggleSel, selEq]
  | graph ns =>
    simp only [toggleSel, selEq]
    rw [listSetEq_iff]
    intro x
    by_cases hm : h ∈ ns
    · have h1 := mem_insert_or_exclude_of_mem hm
      have hna : h ∉ insert_or_exclude ns h := fun hc => ((h1 h).mp hc).2 rfl
      rw [mem_insert_or_exclude_of_not_mem hna, h1 x]
      constructor
      · rintro (⟨hx, _⟩ | rfl)
        · exact hx
        · exact hm
      · intro hx
        by_cases hxh : x = h
        · exact Or.inr hxh
        · exact Or.inl ⟨hx, hxh⟩
    · have h1 := mem_insert_or_exclude_of_not_mem hm
      have hma : h ∈ insert_or_exclude ns h := (h1 h).mpr (Or.inr rfl)
      rw [mem_insert_or_exclude_of_mem hma, h1 x]
      constructor
      · rintro ⟨hx | rfl, hxh⟩
        · exact hx
        · exact absurd rfl hxh
      · intro hx
        refine ⟨Or.inl hx, ?_⟩
        rintro rfl
        exact hm hx

/-- Witness for C9 (amended) on a two-element graph selection. -/
theorem toggle_involution_non_none_witness :
    selEq (toggleSel (toggleSel (Selection.graph [1, 2]) 1) 1)
      (Selection.graph [1, 2]) = true :=
  toggle_involution_non_none (Selection.graph [1, 2]) 1 (by decide)

/-! ## Claim C7 — the selection-change fold -/

theorem selection_fold_eq_toggle_fold (hs : List Nat) :
    selection_fold hs = hs.foldl toggleSel Selection.none := by
  unfold selection_fold
  have hf : (fun (s : Selection) (h : Nat) =>
      match s with
      | .none => Selection.graph (single_or_empty h)
      | .graph ns => Selection.graph (insert_or_exclude ns h)
      | o => o) = toggleSel := by
    funext s h
    cases s <;> rfl
  rw [hf]

theorem fold_graph_app (rest : List Nat) :
    ∀ acc, (∀ x ∈ rest, x ∉ acc) → rest.Nodup →
      List.foldl toggleSel (Selection.graph acc) rest =
        Selection.graph (acc ++ rest) := by
  induction rest with
  | nil => intro acc _ _; simp
  | cons a rest ih =>
    intro acc hdisj hnd
    rw [List.foldl_cons]
    have ha : a ∉ acc := hdisj a (List.mem_cons_self _ _)
    have step : toggleSel (Selection.graph acc) a =
        Selection.graph (acc ++ [a]) := by
      simp only [toggleSel, insert_or_exclude]
      rw [if_neg (fun hc => ha (contains_iff.mp hc))]
    rw [step, ih (acc ++ [a]) ?_ (List.nodup_cons.mp hnd).2]
    · rw [List.append_assoc, List.singleton_append]
    · intro x hx
      rw [List.mem_append]
      rintro (hxa | hxs)
      · exact hdisj x (List.mem_cons_of_mem _ hx) hxa
      · have hxa : x = a := by simpa using hxs
        subst hxa
        exact (List.nodup_cons.mp hnd).1 hx

theorem selection_fold_nodup (l : List Nat) (hne : l ≠ [])
    (hnd : l.Nodup) : selection_fold l = Selection.graph l := by
  cases l with
  | nil => exact absurd rfl hne
  | cons a rest =>
    rw [selection_fold_eq_toggle_fold, List.foldl_cons]
    have h0 : toggleSel Selection.none a = Selection.graph [a] := rfl
    rw [h0, fold_graph_app rest [a] ?_ (List.nodup_cons.mp hnd).2]
    · rw [List.singleton_append]
    · intro x hx hxa
      have hxa : x = a := by simpa using hxa
      subst hxa
      exact (List.nodup_cons.mp hnd).1 hx

/-- C7 counterexample: with the graph variant holding an empty node set as
the active selection, calling `on_selection_changed` with the (structurally
equal) empty handle list rebuilds `None`, which differs from the empty
graph variant, so a command **is** submitted — idempotence fails there. -/
theorem selection_changed_idempotence_cex :
    on_selection_changed (Selection.graph []) [] =
      some (.changeSelection Selection.none (Selection.graph [])) := by
  decide

/-- C7 (amended): the new selection value is the fold of the toggle
(insert-or-exclude, with `None` toggling to a singleton graph selection)
over the handle list, and a selection-change command carrying the new and
the old values is submitted iff that fold differs structurally from the
active selection; in particular, calling with a non-empty duplicate-free
handle list equal to the node list of the active graph selection submits
no command. -/
theorem selection_changed_spec (sel : Selection) (hs : List Nat)
    (l : List Nat) (hne : l ≠ []) (hnd : l.Nodup) :
    (on_selection_changed sel hs =
      if selEq (hs.foldl toggleSel Selection.none) sel then none
      else some (.changeSelection (hs.foldl toggleSel Selection.none) sel)) ∧
    on_selection_changed (Selection.graph l) l = none := by
  constructor
  · rw [on_selection_changed, selection_fold_eq_toggle_fold]
  · rw [on_selection_changed]
    simp only [selection_fold_nodup l hne hnd]
    rw [if_pos]
    exact listSetEq_iff.mpr fun x => Iff.rfl

/-- Witness for C7 (amended): repeating the current two-element selection
submits nothing. -/
theorem selection_changed_spec_witness :
    on_selection_changed (Selection.graph [1, 2]) [1, 2] = none :=
  (selection_changed_spec (Selection.graph [1, 2]) [1, 2] [1, 2]
    (by decide) (by decide)).2

/-! ## Claim C10 — a node is never linked under itself -/

theorem buildLinkCommands_mem {g : Graph} {parent : Nat} :
    ∀ {nodes : List Nat} {cmds : List GameSceneCommand},
      buildLinkCommands g parent nodes = some cmds →
      ∀ c ∈ cmds, ∃ n, n ∈ nodes ∧ c = .linkNodes n parent ∧
        ancestorAttach g n (g.length + 1) parent = some true := by
  intro nodes
  induction nodes with
  | nil =>
    intro cmds h c hc
    injection h with h
    subst h
    cases hc
  | cons n rest ih =>
    intro cmds h c hc
    rw [buildLinkCommands] at h
    cases hw : ancestorAttach g n (g.length + 1) parent with
    | none => rw [hw] at h; cases h
    | some attach =>
      rw [hw] at h
      cases hb : buildLinkCommands g parent rest with
      | none => rw [hb] at h; cases h
      | some cmds' =>
        rw [hb] at h
        simp only [Option.map_some'] at h
        injection h with h
        subst h
        cases attach with
        | true =>
          rcases List.mem_cons.mp hc with hc | hc
          · exact ⟨n, List.mem_cons_self _ _, hc, hw⟩
          · obtain ⟨n', hn', hcn', hwn'⟩ := ih hb c hc
            exact ⟨n', List.mem_cons_of_mem _ hn', hcn', hwn'⟩
        | false =>
          obtain ⟨n', hn', hcn', hwn'⟩ := ih hb c hc
          exact ⟨n', List.mem_cons_of_mem _ hn', hcn', hwn'⟩

/-- C10 counterexample: when the drop target is the null handle and the
null handle is among the selected nodes, the cycle-safety walk exits
immediately (the null handle "is some" fails) and the batch contains a
link command whose node equals the new parent — the claimed invariant
fails for the null parent. -/
theorem reparent_self_link_cex :
    on_change_hierarchy_request [] (Selection.graph [0]) 0 0 =
      some (some [GameSceneCommand.linkNodes 0 0]) := by decide

/-- C10 (amended): provided the new parent is not the null handle, no link
command in a batch submitted by `on_change_hierarchy_request` has its node
equal to the new parent — the cycle-safety walk starts at the new parent
itself, so a selected node equal to the drop target is excluded
immediately and a node is never linked under itself. -/
theorem reparent_no_self_link (g : Graph) (sel : Selection)
    (child parent : Nat) (cmds : List GameSceneCommand)
    (hp : parent ≠ 0)
    (hres : on_change_hierarchy_request g sel child parent =
      some (some cmds)) :
    ∀ n p', GameSceneCommand.linkNodes n p' ∈ cmds → n ≠ parent := by
  cases sel with
  | none => cases hres
  | other t => cases hres
  | graph nodes =>
    rw [on_change_hierarchy_request] at hres
    by_cases hcm : nodes.contains child
    · rw [if_pos hcm] at hres
      cases hb : buildLinkCommands g parent nodes with
      | none => rw [hb] at hres; cases hres
      | some cmds0 =>
        rw [hb] at hres
        simp only [Option.map_some'] at hres
        injection hres with hres
        have hc0 : cmds0 = cmds := by
          by_cases he : cmds0.isEmpty = true
          · rw [if_pos he] at hres
            cases hres
          · rw [if_neg he] at hres
            exact Option.some.inj hres
        subst hc0
        intro n p' hc hn
        obtain ⟨n', hn', hcn', hwn'⟩ := buildLinkCommands_mem hb _ hc
        obtain ⟨hnn, hpp⟩ := (GameSceneCommand.linkNodes.injEq _ _ _ _).mp hcn'
        rw [← hnn, hn] at hwn'
        have hwalk : ancestorAttach g parent (g.length + 1) parent =
            some false := by
          simp [ancestorAttach, hp]
        rw [hwalk] at hwn'
        cases hwn'
    · rw [if_neg hcm] at hres
      cases hres

/-- Witness for C10 (amended): reparenting selected node 3 under node 1 in
the demo graph produces the batch `[link 3 1]`, whose sole command's node
differs from the new parent. -/
theorem reparent_no_self_link_witness :
    GameSceneCommand.linkNodes 3 1 ∈ [GameSceneCommand.linkNodes 3 1] ∧
    (3 : Nat) ≠ 1 :=
  ⟨List.mem_singleton.mpr rfl,
   reparent_no_self_link demoGraph (Selection.graph [3]) 3 1
     [GameSceneCommand.linkNodes 3 1] (by decide) (by decide) 3 1
     (List.mem_singleton.mpr rfl)⟩

/-! ## Claim C3 — the asset-drop success path -/

theorem tryGet_instEntriesAux (base : Nat) :
    ∀ (l : List Node) (i j : Nat),
      tryGet (instEntriesAux base i l) (base + i + j) =
        (l.get? j).map (shiftNode base) := by
  intro l
  induction l with
  | nil => intro i j; cases j <;> rfl
  | cons n rest ih =>
    intro i j
    cases j with
    | zero =>
      rw [instEntriesAux, tryGet_cons, if_pos (by simp)]
      rfl
    | succ j' =>
      rw [instEntriesAux, tryGet_cons, if_neg (by simp)]
      have harith : base + i + (j' + 1) = base + (i + 1) + j' := by omega
      rw [harith, ih (i + 1) j']
      rfl

theorem tryGet_instantiate_root (m : Model) (g : Graph) :
    tryGet (instantiate m g).2 (maxKey g + 1) =
      some (shiftNode (maxKey g + 1) m.root) := by
  show tryGet (g ++ instEntries m (maxKey g + 1)) (maxKey g + 1) = _
  rw [tryGet_append_of_none (tryGet_eq_none_of_gt (Nat.lt_succ_self _))]
  have h := tryGet_instEntriesAux (maxKey g + 1) m.nodesList 0 0
  simpa [instEntries, Model.nodesList] using h

theorem tryGet_dropScaled_root (m : Model) (g : Graph) (s : Vec3) :
    tryGet (dropScaled m g s) (dropInstance m g) =
      some { shiftNode (maxKey g + 1) m.root with scale := s } := by
  have h1 : dropScaled m g s =
      updAt (instantiate m g).2 (dropInstance m g)
        (fun n => { n with scale := s }) := rfl
  rw [h1, tryGet_updAt, if_pos rfl]
  have hinst : dropInstance m g = maxKey g + 1 := rfl
  rw [hinst, tryGet_instantiate_root]
  rfl

/-- C3: when the path normalizes and the model resolves, `on_asset_dropped`
submits exactly one command group of exactly three commands in order — add
the detached sub-graph, link the new instance under the target node, change
the selection to the new instance alone with the previous selection
recorded for reversal — and the instantiation scale is applied to the new
instance's local transform before the sub-graph is detached (the detached
sub-graph's root node carries the scale). -/
theorem asset_drop_success_group (env : ResourceEnv) (s : Vec3)
    (sel : Selection) (g : Graph) (path : String) (node : Nat)
    (rel : String) (m : Model)
    (hrel : env.make_relative_path path = some rel)
    (hm : env.request_model rel = some m) :
    on_asset_dropped env s sel g path node =
      (dropRemaining m g s,
       some [.addModel (dropSubGraph m g s),
             .linkNodes (dropInstance m g) node,
             .changeSelection (.graph (single_or_empty (dropInstance m g)))
               sel]) ∧
    (dropSubGraph m g s).root = dropInstance m g ∧
    (tryGet (dropSubGraph m g s).entries (dropInstance m g)).map Node.scale =
      some s := by
  refine ⟨?_, rfl, ?_⟩
  · unfold on_asset_dropped
    rw [hrel]
    simp only []
    rw [hm]
    rfl
  · have hks : ((subKeys (dropScaled m g s) ((dropScaled m g s).length + 1)
        (dropInstance m g)).contains (dropInstance m g)) = true := by
      rw [subKeys]
      simp
    have hfin := tryGet_filter_of
      (fun e => (subKeys (dropScaled m g s) ((dropScaled m g s).length + 1)
        (dropInstance m g)).contains e.1)
      (tryGet_dropScaled_root m g s) hks
    have hent : (dropSubGraph m g s).entries =
        (dropScaled m g s).filter (fun e =>
          (subKeys (dropScaled m g s) ((dropScaled m g s).length + 1)
            (dropInstance m g)).contains e.1) := rfl
    rw [hent, hfin]
    rfl

/-- Witness for C3: dropping a two-node model onto node 1 of the demo
graph emits the three-command group. -/
theorem asset_drop_success_group_witness :
    on_asset_dropped
      { make_relative_path := fun p => some p,
        request_model := fun _ =>
          some { root := plainNode 0 [2], rest := [plainNode 1 []] } }
      ⟨5, 5, 5⟩ (Selection.graph [3]) demoGraph "m.rgs" 1 =
      (dropRemaining { root := plainNode 0 [2], rest := [plainNode 1 []] }
         demoGraph ⟨5, 5, 5⟩,
       some [.addModel (dropSubGraph
               { root := plainNode 0 [2], rest := [plainNode 1 []] }
               demoGraph ⟨5, 5, 5⟩),
             .linkNodes (dropInstance
               { root := plainNode 0 [2], rest := [plainNode 1 []] }
               demoGraph) 1,
             .changeSelection
               (.graph (single_or_empty (dropInstance
                 { root := plainNode 0 [2], rest := [plainNode 1 []] }
                 demoGraph)))
               (Selection.graph [3])]) :=
  (asset_drop_success_group _ ⟨5, 5, 5⟩ (Selection.graph [3]) demoGraph
    "m.rgs" 1 "m.rgs" _ rfl rfl).1

/-! ## Claim C5 — mutation requests leave the graph unchanged -/

theorem length_instEntriesAux (base : Nat) :
    ∀ (l : List Node) (i : Nat), (instEntriesAux base i l).length = l.length := by
  intro l
  induction l with
  | nil => intro i; rfl
  | cons n rest ih => intro i; simp [instEntriesAux, ih]

theorem length_updAt (g : Graph) (k : Nat) (f : Node → Node) :
    (updAt g k f).length = g.length :=
  List.length_map g _

theorem mem_updAt_key {g : Graph} {k : Nat} {f : Node → Node}
    {e : Nat × Node} (h : e ∈ updAt g k f) : ∃ e₀ ∈ g, e.1 = e₀.1 := by
  obtain ⟨e₀, he₀, heq⟩ := List.mem_map.mp h
  refine ⟨e₀, he₀, ?_⟩
  by_cases hk : e₀.1 = k
  · rw [if_pos hk] at heq
    rw [← heq]
  · rw [if_neg hk] at heq
    rw [← heq]

theorem mem_instEntriesAux_key (base : Nat) :
    ∀ (l : List Node) (i : Nat) (e : Nat × Node),
      e ∈ instEntriesAux base i l → ∃ j, j < l.length ∧ e.1 = base + i + j := by
  intro l
  induction l with
  | nil => intro i e he; cases he
  | cons n rest ih =>
    intro i e he
    rcases List.mem_cons.mp he with rfl | he
    · exact ⟨0, by simp, by simp⟩
    · obtain ⟨j, hj, hkey⟩ := ih (i + 1) e he
      exact ⟨j + 1, by simpa using hj, by omega⟩

theorem children_of_transplant (m : Model) (g : Graph) (s : Vec3) (j : Nat) :
    children_of
      (g ++ updAt (instEntries m (maxKey g + 1)) (maxKey g + 1)
        (fun n => { n with scale := s }))
      (maxKey g + 1 + j) =
      ((m.nodesList.get? j).map
        (fun n => n.children.map (offsetLink (maxKey g + 1)))).getD [] := by
  have hg : tryGet g (maxKey g + 1 + j) = none :=
    tryGet_eq_none_of_gt (by omega)
  rw [children_of, tryGet_append_of_none hg, tryGet_updAt]
  have hE : tryGet (instEntries m (maxKey g + 1)) (maxKey g + 1 + j) =
      (m.nodesList.get? j).map (shiftNode (maxKey g + 1)) := by
    have h := tryGet_instEntriesAux (maxKey g + 1) m.nodesList 0 j
    simpa using h
  by_cases hj : maxKey g + 1 + j = maxKey g + 1
  · rw [if_pos hj, hE]
    cases hn : m.nodesList.get? j <;> simp [shiftNode]
  · rw [if_neg hj, hE]
    cases hn : m.nodesList.get? j <;> simp [shiftNode]

theorem children_of_transplant_local (m : Model) (g : Graph) (s : Vec3)
    (l : Nat) (hl : l ≠ 0) :
    children_of
      (g ++ updAt (instEntries m (maxKey g + 1)) (maxKey g + 1)
        (fun n => { n with scale := s }))
      (offsetLink (maxKey g + 1) l) =
      (localChildren m l).map (offsetLink (maxKey g + 1)) := by
  cases l with
  | zero => exact absurd rfl hl
  | succ j =>
    rw [show offsetLink (maxKey g + 1) (j + 1) = maxKey g + 1 + j from rfl,
      children_of_transplant, localChildren]
    cases hn : m.nodesList.get? j <;> simp

theorem flatMap_congr_mem {α β : Type} {l : List α} {f₁ f₂ : α → List β}
    (h : ∀ a ∈ l, f₁ a = f₂ a) : l.flatMap f₁ = l.flatMap f₂ := by
  induction l with
  | nil => rfl
  | cons a rest ih =>
    rw [List.flatMap_cons, List.flatMap_cons, h a (List.mem_cons_self _ _),
      ih fun a' ha' => h a' (List.mem_cons_of_mem _ ha')]

theorem localChildren_ne_zero {m : Model} (hm : modelLinksOkB m = true) :
    ∀ l c, c ∈ localChildren m l → c ≠ 0 := by
  intro l c hc
  cases l with
  | zero => cases hc
  | succ j =>
    rw [localChildren] at hc
    cases hn : m.nodesList.get? j with
    | none => rw [hn] at hc; cases hc
    | some n =>
      rw [hn] at hc
      simp only [Option.map_some', Option.getD_some] at hc
      have hnm : n ∈ m.nodesList := List.get?_mem hn
      have h1 := (List.all_eq_true.mp hm) n hnm
      have h2 := (List.all_eq_true.mp h1) c hc
      exact bne_iff_ne.mp h2

theorem localSub_ne_zero {m : Model} (hm : modelLinksOkB m = true) :
    ∀ fuel l x, l ≠ 0 → x ∈ localSub m fuel l → x ≠ 0 := by
  intro fuel
  induction fuel with
  | zero => intro l x _ hx; cases hx
  | succ fuel ih =>
    intro l x hl hx
    rw [localSub] at hx
    rcases List.mem_cons.mp hx with rfl | hx
    · exact hl
    · obtain ⟨c, hc, hxc⟩ := List.mem_flatMap.mp hx
      exact ih c x (localChildren_ne_zero hm l c hc) hxc

theorem subKeys_transplant (m : Model) (g : Graph) (s : Vec3)
    (hm : modelLinksOkB m = true) :
    ∀ fuel l, l ≠ 0 →
      subKeys
        (g ++ updAt (instEntries m (maxKey g + 1)) (maxKey g + 1)
          (fun n => { n with scale := s }))
        fuel (offsetLink (maxKey g + 1) l) =
      (localSub m fuel l).map (offsetLink (maxKey g + 1)) := by
  intro fuel
  induction fuel with
  | zero => intro l _; rfl
  | succ fuel ih =>
    intro l hl
    rw [subKeys, localSub, List.map_cons]
    congr 1
    rw [children_of_transplant_local m g s l hl, List.flatMap_map,
      flatMap_congr_mem (fun c hc => ih c (localChildren_ne_zero hm l c hc)),
      List.map_flatMap]

theorem dropScaled_eq (m : Model) (g : Graph) (s : Vec3) :
    dropScaled m g s =
      g ++ updAt (instEntries m (maxKey g + 1)) (maxKey g + 1)
        (fun n => { n with scale := s }) := by
  have h0 : dropScaled m g s =
      updAt (g ++ instEntries m (maxKey g + 1)) (maxKey g + 1)
        (fun n => { n with scale := s }) := rfl
  rw [h0, updAt_append]
  congr 1
  exact updAt_eq_self fun e he => by
    have := key_le_maxKey he
    omega

theorem dropRemaining_eq (m : Model) (g : Graph) (s : Vec3)
    (hm : modelLinksOkB m = true) (hcov : ModelCovers m g) :
    dropRemaining m g s = g := by
  have hsc := dropScaled_eq m g s
  have hlen : (dropScaled m g s).length = g.length + m.nodesList.length := by
    rw [hsc, List.length_append, length_updAt, instEntries,
      length_instEntriesAux]
  have hrem : dropRemaining m g s =
      (dropScaled m g s).filter (fun e =>
        !(subKeys (dropScaled m g s) ((dropScaled m g s).length + 1)
          (dropInstance m g)).contains e.1) := rfl
  have hK : subKeys (dropScaled m g s) ((dropScaled m g s).length + 1)
      (dropInstance m g) =
      (localSub m (g.length + m.nodesList.length + 1) 1).map
        (offsetLink (maxKey g + 1)) := by
    rw [hlen, hsc]
    have h1 : dropInstance m g = offsetLink (maxKey g + 1) 1 := rfl
    rw [h1]
    exact subKeys_transplant m g s hm (g.length + m.nodesList.length + 1) 1
      (by omega)
  rw [hrem, hK, hsc, List.filter_append]
  have hg : g.filter (fun e =>
      !((localSub m (g.length + m.nodesList.length + 1) 1).map
        (offsetLink (maxKey g + 1))).contains e.1) = g := by
    rw [List.filter_eq_self]
    intro e he
    have hkey := key_le_maxKey he
    rw [Bool.not_eq_true']
    rw [Bool.eq_false_iff]
    intro hc
    obtain ⟨x, hx, hxe⟩ := List.mem_map.mp (contains_iff.mp hc)
    have hx0 : x ≠ 0 := localSub_ne_zero hm _ 1 x (by omega) hx
    cases x with
    | zero => exact hx0 rfl
    | succ x' =>
      simp only [offsetLink] at hxe
      omega
  have hE : (updAt (instEntries m (maxKey g + 1)) (maxKey g + 1)
      (fun n => { n with scale := s })).filter (fun e =>
      !((localSub m (g.length + m.nodesList.length + 1) 1).map
        (offsetLink (maxKey g + 1))).contains e.1) = [] := by
    rw [List.filter_eq_nil_iff]
    intro e he hfb
    obtain ⟨e₀, he₀, hek⟩ := mem_updAt_key he
    obtain ⟨j, hj, hkey⟩ := mem_instEntriesAux_key (maxKey g + 1)
      m.nodesList 0 e₀ he₀
    have hct : ((localSub m (g.length + m.nodesList.length + 1) 1).map
        (offsetLink (maxKey g + 1))).contains e.1 = true := by
      apply contains_iff.mpr
      apply List.mem_map.mpr
      refine ⟨j + 1, hcov j hj, ?_⟩
      simp only [offsetLink]
      omega
    rw [hct] at hfb
    cases hfb
  rw [hg, hE, List.append_nil]

/-- C5: the mutation-request operations never mutate the scene graph
directly. `on_change_hierarchy_request` and `on_selection_changed` borrow
the scene immutably (their embeddings take the graph and return only the
submitted commands), and `on_asset_dropped` — the one operation that
touches the graph, by instantiating before detaching — hands back exactly
the graph it was given: every change it causes is carried solely by the
submitted command group. The hypotheses say the resolved model is a
well-formed sub-tree (no null child links, and the detach traversal covers
all of its nodes). -/
theorem mutation_requests_leave_graph_unchanged (env : ResourceEnv)
    (s : Vec3) (sel : Selection) (g : Graph) (path : String) (node : Nat)
    (hwf : ∀ rel m, env.request_model rel = some m →
      modelLinksOkB m = true ∧ ModelCovers m g) :
    (on_asset_dropped env s sel g path node).1 = g := by
  unfold on_asset_dropped
  cases hrel : env.make_relative_path path with
  | none => rfl
  | some rel =>
    simp only []
    cases hm : env.request_model rel with
    | none => rfl
    | some m =>
      obtain ⟨h1, h2⟩ := hwf rel m hm
      show dropRemaining m g s = g
      exact dropRemaining_eq m g s h1 h2

/-- The two-node model used by concrete drops: a root with one child. -/
def demoModel : Model := { root := plainNode 0 [2], rest := [plainNode 1 []] }

/-- A resource environment that resolves every path to `demoModel`. -/
def envModel : ResourceEnv :=
  { make_relative_path := fun p => some p,
    request_model := fun _ => some demoModel }

/-- Witness for C5: dropping the concrete two-node model on the demo graph
returns with the graph exactly as it was. -/
theorem mutation_requests_leave_graph_unchanged_witness :
    (on_asset_dropped envModel ⟨5, 5, 5⟩ (Selection.graph [3]) demoGraph
      "m.rgs" 1).1 = demoGraph :=
  mutation_requests_leave_graph_unchanged envModel ⟨5, 5, 5⟩
    (Selection.graph [3]) demoGraph "m.rgs" 1
    (fun rel m h => by
      simp only [envModel, Option.some.injEq] at h
      subst h
      refine ⟨by decide, ?_⟩
      unfold ModelCovers
      decide)

/-! ## Claim C1 — chain lemmas and correctness of the cycle-safety walk -/

theorem chainN_zero (g : Graph) (p : Nat) : chainN g 0 p = p := rfl

theorem chainN_succ (g : Graph) (k p : Nat) :
    chainN g (k + 1) p = chainN g k (pstep g p) :=
  Function.iterate_succ_apply _ _ _

theorem chainN_succ' (g : Graph) (k p : Nat) :
    chainN g (k + 1) p = pstep g (chainN g k p) :=
  Function.iterate_succ_apply' _ _ _

theorem pstep_eq_parent_of (g : Graph) (x : Nat) :
    pstep g x = parent_of g x := by
  rw [pstep, parent_of]
  cases tryGet g x <;> rfl

theorem pstep_eq_zero_of_not_present {g : Graph} {x : Nat}
    (h : presentB g x = false) : pstep g x = 0 := by
  rw [pstep]
  cases htg : tryGet g x with
  | none => rfl
  | some n => rw [presentB, htg] at h; cases h

theorem present_ne_zero {g : Graph} (h0 : noKey0B g = true) {x : Nat}
    (hx : presentB g x = true) : x ≠ 0 := by
  rintro rfl
  rw [noKey0B, hx] at h0
  exact absurd h0 (by decide)

theorem pstep_zero {g : Graph} (h0 : noKey0B g = true) : pstep g 0 = 0 := by
  apply pstep_eq_zero_of_not_present
  rw [noKey0B, Bool.not_eq_true'] at h0
  exact h0

theorem chainN_zero_of_zero {g : Graph} (h0 : noKey0B g = true) :
    ∀ k, chainN g k 0 = 0 := by
  intro k
  induction k with
  | zero => rfl
  | succ k ih => rw [chainN_succ', ih, pstep_zero h0]

theorem chainN_absorb {g : Graph} (h0 : noKey0B g = true) {k p : Nat}
    (h : chainN g k p = 0) : ∀ j, k ≤ j → chainN g j p = 0 := by
  intro j hkj
  obtain ⟨d, rfl⟩ := Nat.exists_eq_add_of_le hkj
  rw [chainN, Nat.add_comm, Function.iterate_add_apply]
  show (pstep g)^[d] (chainN g k p) = 0
  rw [h]
  exact chainN_zero_of_zero h0 d

theorem tryGet_mem {g : Graph} {p : Nat} {n : Node}
    (h : tryGet g p = some n) : (p, n) ∈ g := by
  induction g with
  | nil => cases h
  | cons e rest ih =>
    rw [tryGet_cons] at h
    by_cases he : e.1 = p
    · rw [if_pos he] at h
      injection h with h
      have he2 : e = (p, n) := by
        obtain ⟨a, b⟩ := e
        simp_all
      rw [← he2]
      exact List.mem_cons_self _ _
    · rw [if_neg he] at h
      exact List.mem_cons_of_mem _ (ih h)

theorem closedB_spec {g : Graph} (hc : closedB g = true) {p : Nat}
    {n : Node} (h : tryGet g p = some n) :
    n.parent = 0 ∨ presentB g n.parent = true := by
  have h1 := (List.all_eq_true.mp hc) (p, n) (tryGet_mem h)
  rcases Bool.or_eq_true_iff.mp h1 with h2 | h2
  · exact Or.inl (by simpa using h2)
  · exact Or.inr h2

theorem termB_spec {g : Graph} (ht : termB g = true) {p : Nat}
    (hp : presentB g p = true) :
    ∃ k, k < g.length + 1 ∧ chainN g k p = 0 := by
  obtain ⟨n, htg⟩ := presentB_iff.mp hp
  have h1 := (List.all_eq_true.mp ht) (p, n) (tryGet_mem htg)
  obtain ⟨k, hk, hck⟩ := List.any_eq_true.mp h1
  exact ⟨k, List.mem_range.mp hk, by simpa using hck⟩

theorem start_reach {g : Graph} (ht : termB g = true) {p : Nat}
    (hp : p = 0 ∨ presentB g p = true) :
    ∃ k, k < g.length + 1 ∧ chainN g k p = 0 := by
  rcases hp with rfl | hp
  · exact ⟨0, Nat.succ_pos _, rfl⟩
  · exact termB_spec ht hp

theorem termB_acyclic {g : Graph} (ht : termB g = true) : AcyclicP g := by
  intro p
  by_cases hp : presentB g p = true
  · obtain ⟨k, _, hk⟩ := termB_spec ht hp
    exact ⟨k, hk⟩
  · refine ⟨1, ?_⟩
    rw [chainN_succ']
    exact pstep_eq_zero_of_not_present (Bool.not_eq_true _ ▸ hp)

theorem reaches_shift {g : Graph} {target p : Nat} (hp0 : p ≠ 0)
    (hpt : p ≠ target) :
    ReachesNullAvoiding g target p ↔
      ReachesNullAvoiding g target (pstep g p) := by
  constructor
  · rintro ⟨k, hk, havd⟩
    cases k with
    | zero => exact absurd hk hp0
    | succ k' =>
      refine ⟨k', ?_, ?_⟩
      · rw [← chainN_succ]
        exact hk
      · intro j hj
        have h := havd (j + 1) (by omega)
        rw [chainN_succ] at h
        exact h
  · rintro ⟨k, hk, havd⟩
    refine ⟨k + 1, ?_, ?_⟩
    · rw [chainN_succ]
      exact hk
    · intro j hj
      cases j with
      | zero => exact hpt
      | succ j' =>
        rw [chainN_succ]
        exact havd j' (by omega)

theorem ancestorAttach_spec {g : Graph} (hc : closedB g = true)
    (target : Nat) :
    ∀ (fuel p : Nat), (∃ k, k < fuel ∧ chainN g k p = 0) →
      (p = 0 ∨ presentB g p = true) →
      ∃ b, ancestorAttach g target fuel p = some b ∧
        (b = true ↔ ReachesNullAvoiding g target p) := by
  intro fuel
  induction fuel with
  | zero =>
    rintro p ⟨k, hk, _⟩ _
    omega
  | succ fuel ih =>
    rintro p ⟨k, hk, hk0⟩ hp
    by_cases hp0 : p = 0
    · subst hp0
      refine ⟨true, by rw [ancestorAttach, if_pos rfl], ?_⟩
      exact ⟨fun _ => ⟨0, rfl, fun j hj => absurd hj (Nat.not_lt_zero j)⟩,
        fun _ => rfl⟩
    · by_cases hpt : p = target
      · refine ⟨false, by rw [ancestorAttach, if_neg hp0, if_pos hpt], ?_⟩
        constructor
        · intro h
          exact absurd h (by decide)
        · rintro ⟨k', hk', havd⟩
          have hkpos : 0 < k' := by
            cases k' with
            | zero => exact absurd hk' hp0
            | succ _ => omega
          exact absurd hpt (havd 0 hkpos)
      · have hpr : presentB g p = true := by
          rcases hp with rfl | hp
          · exact absurd rfl hp0
          · exact hp
        obtain ⟨n, htg⟩ := presentB_iff.mp hpr
        have hps : pstep g p = n.parent := by rw [pstep, htg]
        have hreach' : ∃ k', k' < fuel ∧ chainN g k' n.parent = 0 := by
          cases k with
          | zero => exact absurd hk0 hp0
          | succ k' =>
            refine ⟨k', by omega, ?_⟩
            rw [← hps, ← chainN_succ]
            exact hk0
        obtain ⟨b, hw, hiff⟩ := ih n.parent hreach' (closedB_spec hc htg)
        refine ⟨b, ?_, ?_⟩
        · rw [ancestorAttach, if_neg hp0, if_neg hpt, htg]
          exact hw
        · rw [hiff, ← hps]
          exact (reaches_shift hp0 hpt).symm

theorem buildLinkCommands_spec {g : Graph} {parent : Nat}
    (hc : closedB g = true) (ht : termB g = true)
    (hstart : parent = 0 ∨ presentB g parent = true) :
    ∀ nodes : List Nat, ∃ cmds,
      buildLinkCommands g parent nodes = some cmds ∧
      (∀ n, GameSceneCommand.linkNodes n parent ∈ cmds ↔
        n ∈ nodes ∧ ReachesNullAvoiding g n parent) ∧
      (∀ c ∈ cmds, ∃ n, n ∈ nodes ∧ c = .linkNodes n parent ∧
        ReachesNullAvoiding g n parent) := by
  intro nodes
  induction nodes with
  | nil => exact ⟨[], rfl, by simp, by simp⟩
  | cons n rest ih =>
    obtain ⟨cmds, hbc, hmemiff, hall⟩ := ih
    obtain ⟨b, hw, hiff⟩ := ancestorAttach_spec hc n (g.length + 1) parent
      (start_reach ht hstart) hstart
    cases b with
    | true =>
      refine ⟨.linkNodes n parent :: cmds, ?_, ?_, ?_⟩
      · simp [buildLinkCommands, hw, hbc]
      · intro n'
        constructor
        · intro hmem
          rcases List.mem_cons.mp hmem with heq | hmem'
          · obtain ⟨hn', _⟩ :=
              (GameSceneCommand.linkNodes.injEq _ _ _ _).mp heq
            subst hn'
            exact ⟨List.mem_cons_self _ _, hiff.mp rfl⟩
          · obtain ⟨h1, h2⟩ := (hmemiff n').mp hmem'
            exact ⟨List.mem_cons_of_mem _ h1, h2⟩
        · rintro ⟨hmem, hreach⟩
          rcases List.mem_cons.mp hmem with rfl | hmem'
          · exact List.mem_cons_self _ _
          · exact List.mem_cons_of_mem _ ((hmemiff n').mpr ⟨hmem', hreach⟩)
      · intro c hcm
        rcases List.mem_cons.mp hcm with rfl | hcm
        · exact ⟨n, List.mem_cons_self _ _, rfl, hiff.mp rfl⟩
        · obtain ⟨n', h1, h2, h3⟩ := hall c hcm
          exact ⟨n', List.mem_cons_of_mem _ h1, h2, h3⟩
    | false =>
      refine ⟨cmds, ?_, ?_, ?_⟩
      · simp [buildLinkCommands, hw, hbc]
      · intro n'
        rw [hmemiff n']
        constructor
        · rintro ⟨h1, h2⟩
          exact ⟨List.mem_cons_of_mem _ h1, h2⟩
        · rintro ⟨h1, h2⟩
          rcases List.mem_cons.mp h1 with rfl | h1
          · exact absurd (hiff.mpr h2) (by decide)
          · exact ⟨h1, h2⟩
      · intro c hcm
        obtain ⟨n', h1, h2, h3⟩ := hall c hcm
        exact ⟨n', List.mem_cons_of_mem _ h1, h2, h3⟩

/-! ### Applying a link batch to the graph -/

theorem applyGroup_cons (g : Graph) (c : GameSceneCommand)
    (cmds : List GameSceneCommand) :
    applyGroup g (c :: cmds) = applyGroup (applyCommand g c) cmds := rfl

theorem applyLink_eq (g : Graph) (cnode p : Nat) :
    applyCommand g (GameSceneCommand.linkNodes cnode p) =
      addChild (setParent (removeChild g (parent_of g cnode) cnode)
        cnode p) p cnode := rfl

theorem parent_of_addChild (g : Graph) (k c x : Nat) :
    parent_of (addChild g k c) x = parent_of g x := by
  rw [addChild, parent_of, parent_of, tryGet_updAt]
  by_cases hx : x = k
  · rw [if_pos hx]
    cases tryGet g x <;> rfl
  · rw [if_neg hx]

theorem parent_of_removeChild (g : Graph) (k c x : Nat) :
    parent_of (removeChild g k c) x = parent_of g x := by
  rw [removeChild, parent_of, parent_of, tryGet_updAt]
  by_cases hx : x = k
  · rw [if_pos hx]
    cases tryGet g x <;> rfl
  · rw [if_neg hx]

theorem parent_of_setParent_other {g : Graph} {c p x : Nat} (hx : x ≠ c) :
    parent_of (setParent g c p) x = parent_of g x := by
  rw [setParent, parent_of, parent_of, tryGet_updAt, if_neg hx]

theorem parent_of_applyLink_other (g : Graph) (cnode p x : Nat)
    (hx : x ≠ cnode) :
    parent_of (applyCommand g (GameSceneCommand.linkNodes cnode p)) x =
      parent_of g x := by
  rw [applyLink_eq, parent_of_addChild, parent_of_setParent_other hx,
    parent_of_removeChild]

theorem presentB_updAt (g : Graph) (k : Nat) (f : Node → Node) (x : Nat) :
    presentB (updAt g k f) x = presentB g x := by
  rw [presentB, presentB, tryGet_updAt]
  by_cases hx : x = k
  · rw [if_pos hx]
    cases tryGet g x <;> rfl
  · rw [if_neg hx]

theorem presentB_applyLink (g : Graph) (cnode p x : Nat) :
    presentB (applyCommand g (GameSceneCommand.linkNodes cnode p)) x =
      presentB g x := by
  rw [applyLink_eq, addChild, presentB_updAt, setParent, presentB_updAt,
    removeChild, presentB_updAt]

theorem pstep_applyLink (g : Graph) (cnode p x : Nat) :
    pstep (applyCommand g (GameSceneCommand.linkNodes cnode p)) x =
      if x = cnode ∧ presentB g x = true then p else pstep g x := by
  by_cases hx : x = cnode
  · subst hx
    by_cases hp : presentB g x = true
    · rw [if_pos ⟨rfl, hp⟩]
      obtain ⟨n, htg⟩ := presentB_iff.mp hp
      rw [pstep_eq_parent_of, applyLink_eq, parent_of_addChild, setParent,
        parent_of, tryGet_updAt, if_pos rfl, removeChild, tryGet_updAt]
      by_cases hself : x = parent_of g x
      · rw [if_pos hself, htg]
        rfl
      · rw [if_neg hself, htg]
        rfl
    · rw [if_neg (fun hand => hp hand.2)]
      have hp' : presentB g x = false := Bool.not_eq_true _ ▸ hp
      rw [pstep_eq_zero_of_not_present hp',
        pstep_eq_zero_of_not_present (by rw [presentB_applyLink]; exact hp')]
  · rw [if_neg (fun hand => hx hand.1), pstep_eq_parent_of,
      pstep_eq_parent_of, parent_of_applyLink_other g cnode p x hx]

/-- Whether a command batch relinks the node `x`. -/
def relinkedB (cmds : List GameSceneCommand) (x : Nat) : Bool :=
  cmds.any fun c =>
    match c with
    | .linkNodes n _ => n == x
    | _ => false

theorem pstep_applyGroup {parent : Nat} :
    ∀ (cmds : List GameSceneCommand) (g : Graph),
      (∀ c ∈ cmds, ∃ n, c = .linkNodes n parent) →
      ∀ x, pstep (applyGroup g cmds) x =
        if relinkedB cmds x = true ∧ presentB g x = true then parent
        else pstep g x := by
  intro cmds
  induction cmds with
  | nil =>
    intro g _ x
    simp [applyGroup, relinkedB]
  | cons c rest ih =>
    intro g hall x
    obtain ⟨n, rfl⟩ := hall c (List.mem_cons_self _ _)
    rw [applyGroup_cons,
      ih (applyCommand g (.linkNodes n parent))
        (fun c' hc' => hall c' (List.mem_cons_of_mem _ hc')) x,
      presentB_applyLink, pstep_applyLink]
    have hrel : relinkedB (GameSceneCommand.linkNodes n parent :: rest) x =
        ((n == x) || relinkedB rest x) := by
      rw [relinkedB, List.any_cons]
      rfl
    rw [hrel]
    by_cases hp : presentB g x = true
    · by_cases hr : relinkedB rest x = true
      · simp [hp, hr]
      · have hr' : relinkedB rest x = false := eq_false_of_ne_true hr
        by_cases hnx : x = n
        · subst hnx
          simp [hp, hr']
        · have hnx' : (n == x) = false :=
            beq_false_of_ne fun h => hnx h.symm
          simp [hp, hr', hnx', hnx]
    · have hp' : presentB g x = false := eq_false_of_ne_true hp
      simp [hp']

theorem parent_of_applyGroup_other :
    ∀ (cmds : List GameSceneCommand) (g : Graph) (x : Nat),
      (∀ c ∈ cmds, ∃ n p', c = .linkNodes n p' ∧ n ≠ x) →
      parent_of (applyGroup g cmds) x = parent_of g x := by
  intro cmds
  induction cmds with
  | nil => intro g x _; rfl
  | cons c rest ih =>
    intro g x hall
    obtain ⟨n, p', rfl, hnx⟩ := hall c (List.mem_cons_self _ _)
    rw [applyGroup_cons,
      ih _ x (fun c' hc' => hall c' (List.mem_cons_of_mem _ hc')),
      parent_of_applyLink_other _ _ _ _ (fun h => hnx h.symm)]

theorem chain_parent_invariant {g : Graph} {parent : Nat}
    {cmds : List GameSceneCommand}
    (h0 : noKey0B g = true)
    (hall : ∀ c ∈ cmds, ∃ n, c = .linkNodes n parent)
    (hreach : ∀ q, relinkedB cmds q = true → presentB g q = true →
      ReachesNullAvoiding g q parent) :
    ∀ k, chainN (applyGroup g cmds) k parent = chainN g k parent := by
  intro k
  induction k with
  | zero => rfl
  | succ k ih =>
    rw [chainN_succ', chainN_succ', ih, pstep_applyGroup cmds g hall]
    by_cases hcond : relinkedB cmds (chainN g k parent) = true ∧
        presentB g (chainN g k parent) = true
    · exfalso
      obtain ⟨hrel, hpres⟩ := hcond
      have hq0 : chainN g k parent ≠ 0 := present_ne_zero h0 hpres
      obtain ⟨k₀, hk₀, havd⟩ := hreach _ hrel hpres
      by_cases hkk : k < k₀
      · exact havd k hkk rfl
      · exact hq0 (chainN_absorb h0 hk₀ k (by omega))
    · rw [if_neg hcond]

theorem applyGroup_acyclic {g : Graph} {parent : Nat}
    {cmds : List GameSceneCommand}
    (h0 : noKey0B g = true) (ht : termB g = true)
    (hall2 : ∀ c ∈ cmds, ∃ n, c = .linkNodes n parent ∧
      ReachesNullAvoiding g n parent) :
    AcyclicP (applyGroup g cmds) := by
  have hall : ∀ c ∈ cmds, ∃ n, c = .linkNodes n parent :=
    fun c hc => (hall2 c hc).elim fun n hn => ⟨n, hn.1⟩
  have hreach : ∀ q, relinkedB cmds q = true → presentB g q = true →
      ReachesNullAvoiding g q parent := by
    intro q hrel _
    obtain ⟨c, hcm, hcq⟩ := List.any_eq_true.mp hrel
    obtain ⟨n, hcn, hr⟩ := hall2 c hcm
    subst hcn
    have hnq : n = q := by simpa using hcq
    subst hnq
    exact hr
  have hAcy : AcyclicP g := termB_acyclic ht
  have hinv := chain_parent_invariant h0 hall hreach
  have main : ∀ k p, chainN g k p = 0 →
      ∃ j, chainN (applyGroup g cmds) j p = 0 := by
    intro k
    induction k with
    | zero =>
      intro p hp
      exact ⟨0, hp⟩
    | succ k ih =>
      intro p hp
      by_cases hp0 : p = 0
      · exact ⟨0, hp0⟩
      · by_cases hcond : relinkedB cmds p = true ∧ presentB g p = true
        · obtain ⟨k₂, hk₂⟩ := hAcy parent
          refine ⟨k₂ + 1, ?_⟩
          rw [chainN_succ, pstep_applyGroup cmds g hall, if_pos hcond,
            hinv k₂]
          exact hk₂
        · rw [chainN_succ] at hp
          obtain ⟨j, hj⟩ := ih (pstep g p) hp
          refine ⟨j + 1, ?_⟩
          rw [chainN_succ, pstep_applyGroup cmds g hall, if_neg hcond]
          exact hj
  intro p
  obtain ⟨k, hk⟩ := hAcy p
  exact main k p hk

/-- C1: on a well-formed live graph (no node at the null key, parent links
live or null, parent chains terminating) and a live (or null) drop target,
the reparent request is fully characterized: the walk loop terminates
normally; a selected node contributes a link command iff walking parent
links upward from the new parent reaches the null handle without
encountering that node's handle; every submitted command is such a link
command; the batch is submitted as one group exactly when it is non-empty
(with a non-graph selection, or the dragged child outside the selection,
nothing is submitted); applying the batch leaves every excluded node's
parent unchanged and cannot create a parent cycle. -/
theorem reparent_characterization (g : Graph) (nodes : List Nat)
    (child parent : Nat)
    (h0 : noKey0B g = true) (hc : closedB g = true) (ht : termB g = true)
    (hstart : parent = 0 ∨ presentB g parent = true)
    (hmem : nodes.contains child = true) :
    buildLinkCommands g parent nodes = some (reparentBatch g parent nodes) ∧
    (∀ n, GameSceneCommand.linkNodes n parent ∈
        reparentBatch g parent nodes ↔
      n ∈ nodes ∧ ReachesNullAvoiding g n parent) ∧
    (∀ c ∈ reparentBatch g parent nodes, ∃ n, n ∈ nodes ∧
      c = .linkNodes n parent ∧ ReachesNullAvoiding g n parent) ∧
    on_change_hierarchy_request g (.graph nodes) child parent =
      some (if (reparentBatch g parent nodes).isEmpty then none
            else some (reparentBatch g parent nodes)) ∧
    (∀ sel : Selection, (∀ ns, sel ≠ .graph ns) →
      on_change_hierarchy_request g sel child parent = some none) ∧
    (∀ nodes' : List Nat, nodes'.contains child = false →
      on_change_hierarchy_request g (.graph nodes') child parent =
        some none) ∧
    (∀ x ∈ nodes, ¬ ReachesNullAvoiding g x parent →
      parent_of (applyGroup g (reparentBatch g parent nodes)) x =
        parent_of g x) ∧
    AcyclicP (applyGroup g (reparentBatch g parent nodes)) := by
  obtain ⟨cmds, hbc, hiff, hall⟩ := buildLinkCommands_spec hc ht hstart nodes
  have hRB : reparentBatch g parent nodes = cmds := by
    rw [reparentBatch, hbc]
    rfl
  refine ⟨?_, ?_, ?_, ?_, ?_, ?_, ?_, ?_⟩
  · rw [hRB]
    exact hbc
  · rw [hRB]
    exact hiff
  · rw [hRB]
    exact hall
  · rw [on_change_hierarchy_request, if_pos hmem, hbc, hRB]
    rfl
  · intro sel hsel
    cases sel with
    | none => rfl
    | graph ns => exact absurd rfl (hsel ns)
    | other t => rfl
  · intro nodes' h'
    rw [on_change_hierarchy_request, if_neg (by rw [h']; exact fun h => by cases h)]
  · intro x hx hnr
    rw [hRB]
    apply parent_of_applyGroup_other
    intro c hcc
    obtain ⟨n, h1, h2, h3⟩ := hall c (hRB ▸ hcc)
    exact ⟨n, parent, h2, fun hnx => hnr (hnx ▸ h3)⟩
  · rw [hRB]
    exact applyGroup_acyclic h0 ht fun c hcc =>
      (hall c (hRB ▸ hcc)).elim fun n hn => ⟨n, hn.2.1, hn.2.2⟩

/-- Witness for C1: selecting nodes 2 and 3 of the demo graph and dropping
them on node 1 submits the two-command batch. -/
theorem reparent_characterization_witness :
    on_change_hierarchy_request demoGraph (Selection.graph [2, 3]) 2 1 =
      some (if (reparentBatch demoGraph 1 [2, 3]).isEmpty then none
            else some (reparentBatch demoGraph 1 [2, 3])) :=
  (reparent_characterization demoGraph [2, 3] 2 1 (by decide) (by decide)
    (by decide) (Or.inr (by decide)) (by decide)).2.2.2.1

end FyroxWorldGraph
